import Mathlib

/-!
Shallow embedding of the "Screw Your Neighbor" round engine
(`cards.py`, `strategies.py`, `screw_your_neighbor.py`).

Modelling conventions:
* A Python `deque` of cards becomes a `List Card`; `popleft` takes the head
  (top of the deck) and `append` pushes on the tail (bottom of the deck).
* Python code that can raise (`popleft` on an empty deque, attribute access on
  `None`, `ValueError`, `NotImplementedError`, division by zero) is embedded as
  an `Option`-returning function, `none` marking the raised exception.
* `SYNPlayer` objects are compared by identity in the Python source; players
  live in the `players` list of the game state and are identified by their
  index in that list, so lists of player references (`cur_losers`) become
  lists of indices.
* `current_stack` is `None` until `join_game` sets it; the embedding models
  seated players that have joined a game, whose stack is an integer.
-/

inductive Rank where
  | Ace | Two | Three | Four | Five | Six | Seven | Eight | Nine | Ten
  | Jack | Queen | King
deriving DecidableEq, Repr, Fintype

/-- The `value` of the Python `Rank` enum (Aces low). -/
def Rank.val : Rank → Nat
  | .Ace => 1
  | .Two => 2
  | .Three => 3
  | .Four => 4
  | .Five => 5
  | .Six => 6
  | .Seven => 7
  | .Eight => 8
  | .Nine => 9
  | .Ten => 10
  | .Jack => 11
  | .Queen => 12
  | .King => 13

/-- The `Rank.__lt__` compares the enum values. -/
instance : LT Rank := ⟨fun a b => a.val < b.val⟩

/-- The `Rank.__le__` compares the enum values. -/
instance : LE Rank := ⟨fun a b => a.val ≤ b.val⟩

instance (a b : Rank) : Decidable (a < b) :=
  inferInstanceAs (Decidable (a.val < b.val))

instance (a b : Rank) : Decidable (a ≤ b) :=
  inferInstanceAs (Decidable (a.val ≤ b.val))

inductive Suit where
  | Clubs | Diamonds | Hearts | Spades
deriving DecidableEq, Repr

/-- Playing card: a (suit, rank) pair; `Card.__eq__` is componentwise. -/
structure Card where
  suit : Suit
  rank : Rank
deriving DecidableEq, Repr

/-- The `Card.is_stealable`: every rank but King. -/
def Card.is_stealable (c : Card) : Bool :=
  c.rank ≠ Rank.King

def allSuits : List Suit := [.Clubs, .Diamonds, .Hearts, .Spades]

def allRanks : List Rank :=
  [.Ace, .Two, .Three, .Four, .Five, .Six, .Seven, .Eight, .Nine, .Ten,
   .Jack, .Queen, .King]

/-- The `Deck.__init__` (non-empty case): for each suit, for each rank, append. -/
def fullDeck : List Card :=
  allSuits.flatMap (fun s => allRanks.map (fun r => Card.mk s r))

/-- The `Deck.deal_single`: pop the front card; raises on an empty deque. -/
def deal_single (d : List Card) : Option (Card × List Card) :=
  match d with
  | [] => none
  | c :: rest => some (c, rest)

/-- The `Deck.deal_specific`: `remove` drops the first card equal to
`Card(suit, rank)`; if `remove` raises (card absent) the deck is untouched and
`None` is returned, otherwise a freshly constructed equal card is returned. -/
def deal_specific (d : List Card) (s : Suit) (r : Rank) :
    Option Card × List Card :=
  if Card.mk s r ∈ d then (some (Card.mk s r), d.erase (Card.mk s r))
  else (none, d)

/-- The `Deck.return_card`: raises `ValueError` (here `none`) if an equal card is
already in the deck, otherwise appends the card at the bottom. -/
def return_card (d : List Card) (c : Card) : Option (List Card) :=
  if c ∈ d then none else some (d ++ [c])

example : fullDeck.length = 52 := by decide

/-- C8: `deal_specific` on an absent card returns an explicit `none` and the
untouched deck; on a present card it returns an equal card and removes one
copy of it (the remaining deck plus the removed card is the original deck,
as a multiset). -/
theorem deal_specific_spec (d : List Card) (s : Suit) (r : Rank) :
    (Card.mk s r ∉ d → deal_specific d s r = (none, d)) ∧
    (Card.mk s r ∈ d →
      ∃ d', deal_specific d s r = (some (Card.mk s r), d') ∧
        (d' : Multiset Card) + {Card.mk s r} = (d : Multiset Card)) := by
  constructor
  · intro h
    simp [deal_specific, h]
  · intro h
    refine ⟨d.erase (Card.mk s r), ?_, ?_⟩
    · simp [deal_specific, h]
    · have := Multiset.cons_erase (show Card.mk s r ∈ (d : Multiset Card) by
        simpa using h)
      calc ((d.erase (Card.mk s r) : List Card) : Multiset Card)
            + {Card.mk s r}
          = Card.mk s r ::ₘ ((d : Multiset Card).erase (Card.mk s r)) := by
            rw [← Multiset.coe_erase, add_comm, Multiset.singleton_add]
        _ = (d : Multiset Card) := this

/-- Closed instance of `deal_specific_spec`: the ace of clubs is present in a
one-card deck and gets removed; the king of spades is absent from it and the
deck is returned unchanged with an explicit `none`. -/
theorem deal_specific_spec_witness :
    (deal_specific [Card.mk .Clubs .Ace] .Spades .King =
      (none, [Card.mk .Clubs .Ace])) ∧
    (∃ d', deal_specific [Card.mk .Clubs .Ace] .Clubs .Ace =
        (some (Card.mk .Clubs .Ace), d') ∧
      (d' : Multiset Card) + {Card.mk .Clubs .Ace} =
        ([Card.mk .Clubs .Ace] : List Card)) :=
  ⟨(deal_specific_spec [Card.mk .Clubs .Ace] .Spades .King).1 (by decide),
   (deal_specific_spec [Card.mk .Clubs .Ace] .Clubs .Ace).2 (by decide)⟩

/-- C9: `return_card` appends the card at the bottom of the deck when no equal
card is present, and raises the duplicate-card error (modelled as `none`, the
deck left as it was) when an equal card is already in the deck. -/
theorem return_card_spec (d : List Card) (c : Card) :
    (c ∈ d → return_card d c = none) ∧
    (c ∉ d → return_card d c = some (d ++ [c])) := by
  constructor
  · intro h; simp [return_card, h]
  · intro h; simp [return_card, h]

/-- Closed instance of `return_card_spec`: returning a card already in the
deck errors, returning an absent card appends it at the bottom. -/
theorem return_card_spec_witness :
    (return_card [Card.mk .Hearts .Two] (Card.mk .Hearts .Two) = none) ∧
    (return_card [Card.mk .Hearts .Two] (Card.mk .Spades .Ten) =
      some [Card.mk .Hearts .Two, Card.mk .Spades .Ten]) :=
  ⟨(return_card_spec [Card.mk .Hearts .Two] (Card.mk .Hearts .Two)).1
      (by decide),
   (return_card_spec [Card.mk .Hearts .Two] (Card.mk .Spades .Ten)).2
      (by decide)⟩

/-! ## Strategies, players and game state -/

/-- The two strategy implementations of `strategies.py`. -/
inductive Strategy where
  | cheater_villain
  | naive_firstonly (lowest_to_keep : Nat)
deriving DecidableEq, Repr

/-- The `SYNPlayer`, restricted to the fields the engine reads and writes.
`name` and `playerID` play no role in the round engine.  Player identity is
the index in the game state's `players` list. -/
structure SYNPlayer where
  current_stack : Int
  orig_card : Option Card
  pre_swap_card : Option Card
  current_card : Option Card
  attempted_to_swap : Bool
  target_of_swap : Bool
  strategy : Strategy
deriving DecidableEq, Repr

/-- The `SYNGameState`: the table's seated-player list, the dealer button, the
deck, and the per-round bookkeeping fields. -/
structure SYNGameState where
  players : List SYNPlayer
  dealer_button : Nat
  deck : List Card
  current_low : Rank
  cur_losers : List Nat
  round : Nat
deriving DecidableEq, Repr

/-- The `SYNPlayer.draw`: with no held card, pop the top of the deck and record it
as both `current_card` and `orig_card`; with a held card and `replace=True`,
discard it to the bottom (`return_card` may raise) and pop the new top;
otherwise do nothing. -/
def SYNPlayer.draw (p : SYNPlayer) (deck : List Card) (replace : Bool) :
    Option (SYNPlayer × List Card) :=
  match p.current_card with
  | none =>
    match deal_single deck with
    | none => none
    | some (c, rest) =>
      some ({ p with current_card := some c, orig_card := some c }, rest)
  | some cc =>
    if replace then
      match return_card deck cc with
      | none => none
      | some d2 =>
        match deal_single d2 with
        | none => none
        | some (c, rest) => some ({ p with current_card := some c }, rest)
    else some (p, deck)

/-- Python's `%` on integers for a nonzero modulus; `none` models the
`ZeroDivisionError`.  For the positive moduli the engine uses, `Int.emod`
already agrees with Python. -/
def pymod (a n : Int) : Option Int :=
  if n = 0 then none else some ((a % n + n) % n)

/-- The `SYNPlayer.get_relative_pos`: position relative to the button, the button
itself being last. -/
def get_relative_pos (st : SYNGameState) (seat : Nat) : Option Int :=
  match pymod ((seat : Int) - 1 - (st.dealer_button : Int))
      (st.players.length : Int) with
  | none => none
  | some r => some (if r < 0 then (st.players.length : Int) + r else r)

/-- The `SYNStrat_naive_firstonly.run` + `naive_pass_if_low`: only valid in first
position (`NotImplementedError`, i.e. `none`, otherwise); keeps iff the held
rank's value is at least the threshold. -/
def naive_run (lowest_to_keep : Nat) (st : SYNGameState) (seat : Nat) :
    Option Bool :=
  match get_relative_pos st seat with
  | none => none
  | some pos =>
    if pos = 0 then
      match st.players.get? seat with
      | none => none
      | some p =>
        match p.current_card with
        | none => none
        | some c => some (if lowest_to_keep ≤ c.rank.val then false else true)
    else none

/-- Loop body of `SYNStrat_cheater_villain.run`: walk all seats, skip the
acting player (identity comparison = index comparison), and return `False` at
the first opponent holding a strictly lower card. -/
def cheater_go (pcard : Option Card) (seat : Nat) :
    Nat → List SYNPlayer → Option Bool
  | _, [] => some true
  | i, opp :: rest =>
    if i = seat then cheater_go pcard seat (i + 1) rest
    else
      match opp.current_card with
      | none => none
      | some oc =>
        match pcard with
        | none => none
        | some pc =>
          if oc.rank < pc.rank then some false
          else cheater_go pcard seat (i + 1) rest

/-- The `SYNStrat_cheater_villain.run` for the player seated at `seat`. -/
def cheater_run (st : SYNGameState) (seat : Nat) : Option Bool :=
  match st.players.get? seat with
  | none => none
  | some p => cheater_go p.current_card seat 0 st.players

/-- Strategy dispatch (`SYNStrat.run`). -/
def Strategy.run : Strategy → SYNGameState → Nat → Option Bool
  | .cheater_villain, st, seat => cheater_run st seat
  | .naive_firstonly lk, st, seat => naive_run lk st seat

/-- The `SYNGameState.advance_round`: bump the round counter; on a real round move
the button one seat to the right modulo the number of seated players (a zero
player count would be a `ZeroDivisionError`). -/
def advance_round (st : SYNGameState) (practice_round : Bool) :
    Option SYNGameState :=
  let st1 := { st with round := st.round + 1 }
  if practice_round then some st1
  else if st1.players.length = 0 then none
  else some { st1 with
    dealer_button := (st1.dealer_button + 1) % st1.players.length }

/-- A seated player holding card `c` with stack `stack`, playing the cheater
strategy; used for concrete test states. -/
def mkPlayer (c : Option Card) (stack : Int) : SYNPlayer :=
  { current_stack := stack, orig_card := c, pre_swap_card := none,
    current_card := c, attempted_to_swap := false, target_of_swap := false,
    strategy := .cheater_villain }

/-! ## Round engine -/

/-- The bookkeeping `SYNPlayer.take_turn` performs on the acting player:
record the decision in `attempted_to_swap` and snapshot `pre_swap_card`. -/
def mark_turn (p : SYNPlayer) (dec : Bool) : SYNPlayer :=
  { p with attempted_to_swap := dec, pre_swap_card := p.current_card }

/-- The `SYNPlayer.take_turn` inside `process_turns`: run the seat's strategy,
record the decision and the pre-swap snapshot on the acting player, and hand
the decision back. -/
def take_turn (st : SYNGameState) (seat : Nat) :
    Option (SYNGameState × Bool) :=
  match st.players.get? seat with
  | none => none
  | some p =>
    match p.strategy.run st seat with
    | none => none
    | some dec =>
      some ({ st with players := st.players.set seat (mark_turn p dec) }, dec)

/-- The `SYNPlayer.swap`: exchange the two seats' held cards and mark the target
(the second player) as `target_of_swap`. -/
def players_swap (ps : List SYNPlayer) (a b : Nat) : List SYNPlayer :=
  match ps.get? a, ps.get? b with
  | some pa, some pb =>
    (ps.set a { pa with current_card := pb.current_card }).set b
      { pb with current_card := pa.current_card, target_of_swap := true }
  | _, _ => ps

/-- One iteration of the `process_turns` loop, for loop counter `i`: the
acting seat is `(dealer_button + i + 1) % n`, its neighbor the following
seat; on a swap decision the button draws from the deck, anyone else steals
from the neighbor unless the neighbor's card is a King. -/
def turn_step (st : SYNGameState) (i : Nat) : Option SYNGameState :=
  let n := st.players.length
  let cur_seat := (st.dealer_button + i + 1) % n
  let next_seat := (cur_seat + 1) % n
  match take_turn st cur_seat with
  | none => none
  | some (st1, swap) =>
    if swap then
      if cur_seat = st.dealer_button then
        match st1.players.get? cur_seat with
        | none => none
        | some p =>
          match p.draw st1.deck true with
          | none => none
          | some (p', d') =>
            some { st1 with players := st1.players.set cur_seat p',
                            deck := d' }
      else
        match st1.players.get? next_seat with
        | none => none
        | some np =>
          match np.current_card with
          | none => none
          | some c =>
            if c.is_stealable then
              some { st1 with
                players := players_swap st1.players cur_seat next_seat }
            else some st1
    else some st1

/-- The `for i in range(num_players)` loop of `process_turns`, with the
remaining iteration count as fuel. -/
def run_turns : SYNGameState → Nat → Nat → Option SYNGameState
  | st, _, 0 => some st
  | st, i, k + 1 =>
    match turn_step st i with
    | none => none
    | some st' => run_turns st' (i + 1) k

/-- The `SYNGameState.process_turns`: needs at least two seated players
(`ValueError`, i.e. `none`, otherwise), then runs one turn per player. -/
def process_turns (st : SYNGameState) : Option SYNGameState :=
  if st.players.length < 2 then none
  else run_turns st 0 st.players.length

/-- The loser-scanning loop of `calculate_results`: walk the players in seat
order carrying the running low and the list of loser indices; a rank equal to
the running low is appended, a strictly lower rank restarts the list. -/
def scan_losers : List SYNPlayer → Nat → Rank → List Nat →
    Option (Rank × List Nat)
  | [], _, low, losers => some (low, losers)
  | p :: ps, i, low, losers =>
    match p.current_card with
    | none => none
    | some c =>
      if c.rank = low then scan_losers ps (i + 1) low (losers ++ [i])
      else if c.rank < low then scan_losers ps (i + 1) c.rank [i]
      else scan_losers ps (i + 1) low losers

/-- Stack of the player at index `i` (the indices handed to it by the engine
are always in range). -/
def stackAt (ps : List SYNPlayer) (i : Nat) : Int :=
  match ps.get? i with
  | some p => p.current_stack
  | none => 0

/-- The deduction loop of `calculate_results`: each loser's stack drops by
one unit. -/
def deduct_stacks : List SYNPlayer → List Nat → List SYNPlayer
  | ps, [] => ps
  | ps, i :: rest =>
    deduct_stacks
      (match ps.get? i with
       | some p => ps.set i { p with current_stack := p.current_stack - 1 }
       | none => ps) rest

/-- The `SYNGameState.calculate_results`: reset the running low to King, scan for
the losers (appending to the pre-existing `cur_losers` list, which the round
flow has reset to `[]` in `start_round`), then, on a real round, deduct —
`tiegame` starts out `True` and is refuted only inside the
all-players-are-losers branch.  Returns the updated state together with the
low rank and the loser list. -/
def calculate_results (st : SYNGameState) (practice_round : Bool) :
    Option (SYNGameState × Rank × List Nat) :=
  match scan_losers st.players 0 Rank.King st.cur_losers with
  | none => none
  | some (low, losers) =>
    let st1 := { st with current_low := low, cur_losers := losers }
    if practice_round = false then
      let tiegame : Bool :=
        if losers = List.range st1.players.length then
          ! losers.any (fun i => stackAt st1.players i != 0)
        else true
      if tiegame then some (st1, low, losers)
      else some ({ st1 with players := deduct_stacks st1.players losers },
        low, losers)
    else some (st1, low, losers)

/-- The resetting part of `SYNPlayer.begin_turn` (`pre_swap_card` is *not*
reset there). -/
def begin_turn_reset (p : SYNPlayer) : SYNPlayer :=
  { p with orig_card := none, current_card := none,
           attempted_to_swap := false, target_of_swap := false }

/-- The dealing loop of `start_round`: every player runs `begin_turn`
(reset, then `draw` from the top of the deck). -/
def deal_players : List SYNPlayer → List Card →
    Option (List SYNPlayer × List Card)
  | [], d => some ([], d)
  | p :: ps, d =>
    match (begin_turn_reset p).draw d false with
    | none => none
    | some (p', d') =>
      match deal_players ps d' with
      | none => none
      | some (ps', d'') => some (p' :: ps', d'')

/-- The current-low loop at the end of `start_round` (information for the
cheater strategies). -/
def calc_low : List SYNPlayer → Rank → Option Rank
  | [], low => some low
  | p :: ps, low =>
    match p.current_card with
    | none => none
    | some c => calc_low ps (if c.rank < low then c.rank else low)

/-- The `SYNGameState.start_round`: assert a 52-card deck, reset the round
bookkeeping, shuffle (the shuffled order is passed in; theorems require it to
be a permutation of the deck), deal one card per player, and compute the
current low. -/
def start_round (st : SYNGameState) (shuffled : List Card) :
    Option SYNGameState :=
  if st.deck.length = 52 then
    match deal_players st.players shuffled with
    | none => none
    | some (ps', d') =>
      match calc_low ps' Rank.King with
      | none => none
      | some low =>
        some { st with players := ps', deck := d', cur_losers := [],
                       current_low := low }
  else none

/-- The loop of `collect_all_hands`: every player holding a card discards it
back to the bottom of the deck (`SYNPlayer.discard`). -/
def collect_players : List SYNPlayer → List Card →
    Option (List SYNPlayer × List Card)
  | [], d => some ([], d)
  | p :: ps, d =>
    match p.current_card with
    | none =>
      match collect_players ps d with
      | none => none
      | some (ps', d') => some (p :: ps', d')
    | some c =>
      match return_card d c with
      | none => none
      | some d' =>
        match collect_players ps d' with
        | none => none
        | some (ps', d'') => some ({ p with current_card := none } :: ps', d'')

/-- The `SYNGameState.collect_all_hands`. -/
def collect_all_hands (st : SYNGameState) : Option SYNGameState :=
  match collect_players st.players st.deck with
  | none => none
  | some (ps, d) => some { st with players := ps, deck := d }

/-! ## Rank order helpers -/

lemma Rank.le_of_not_lt {a b : Rank} (h : ¬ a < b) : b ≤ a := by
  have h' : ¬ a.val < b.val := h
  show b.val ≤ a.val
  omega

lemma Rank.not_le_of_lt {a b : Rank} (h : a < b) : ¬ b ≤ a := by
  have h' : a.val < b.val := h
  show ¬ b.val ≤ a.val
  omega

/-! ## C10: `SYNPlayer.draw` -/

/-- C10: `draw` with `replace = false` on a player who already holds a card is
a silent no-op (held card, `orig_card` and the deck are all unchanged); with
no held card the top of the deck is drawn — for either `replace` flag — and
recorded as `orig_card`; a replacement (discard to the bottom, then draw the
new top) happens only with `replace = true`, and leaves `orig_card` alone. -/
theorem player_draw_spec (p : SYNPlayer) (d : List Card) :
    (p.current_card.isSome → p.draw d false = some (p, d)) ∧
    (∀ rep, p.current_card = none →
      p.draw d rep =
        match d with
        | [] => none
        | c :: rest =>
          some ({ p with current_card := some c, orig_card := some c },
            rest)) ∧
    (∀ c, p.current_card = some c → c ∉ d →
      ∃ c' rest, d ++ [c] = c' :: rest ∧
        p.draw d true = some ({ p with current_card := some c' }, rest)) := by
  refine ⟨?_, ?_, ?_⟩
  · intro h
    cases hc : p.current_card with
    | none => rw [hc] at h; simp at h
    | some cc => simp [SYNPlayer.draw, hc]
  · intro rep h
    cases d with
    | nil => simp [SYNPlayer.draw, h, deal_single]
    | cons c rest => simp [SYNPlayer.draw, h, deal_single]
  · intro c hc hnd
    cases hd : d ++ [c] with
    | nil => simp at hd
    | cons c' rest =>
      refine ⟨c', rest, rfl, ?_⟩
      simp [SYNPlayer.draw, hc, return_card, hnd, hd, deal_single]

/-- The `player_draw_spec` at a concrete player and one-card deck: holding the ace
of clubs, `replace = false` changes nothing; `replace = true` sends the ace to
the bottom and draws the former top card. -/
theorem player_draw_spec_witness :
    (SYNPlayer.draw (mkPlayer (some (Card.mk .Clubs .Ace)) 4)
        [Card.mk .Diamonds .Two] false =
      some (mkPlayer (some (Card.mk .Clubs .Ace)) 4,
        [Card.mk .Diamonds .Two])) ∧
    (∃ c' rest,
      [Card.mk .Diamonds .Two] ++ [Card.mk .Clubs .Ace] = c' :: rest ∧
      SYNPlayer.draw (mkPlayer (some (Card.mk .Clubs .Ace)) 4)
          [Card.mk .Diamonds .Two] true =
        some ({ mkPlayer (some (Card.mk .Clubs .Ace)) 4 with
                  current_card := some c' }, rest)) :=
  ⟨(player_draw_spec _ _).1 (by decide),
   (player_draw_spec _ _).2.2 (Card.mk .Clubs .Ace) rfl (by decide)⟩

/-! ## C6: `advance_round` -/

/-- C6: `advance_round` bumps the round counter by exactly one in both cases;
after a practice round the button (and everything else about the players) is
unchanged, after a real round the button moves to the immediately following
seat, wrapping past the last seated player back to seat 0. -/
theorem advance_round_spec (st : SYNGameState)
    (hn : 0 < st.players.length)
    (hdb : st.dealer_button < st.players.length) :
    (∃ st', advance_round st true = some st' ∧
      st'.round = st.round + 1 ∧
      st'.dealer_button = st.dealer_button ∧
      st'.players = st.players) ∧
    (∃ st', advance_round st false = some st' ∧
      st'.round = st.round + 1 ∧
      st'.dealer_button =
        (if st.dealer_button + 1 = st.players.length then 0
         else st.dealer_button + 1)) := by
  constructor
  · exact ⟨{ st with round := st.round + 1 }, rfl, rfl, rfl, rfl⟩
  · have hne : st.players.length ≠ 0 := by omega
    have hadv : advance_round st false =
        some { st with round := st.round + 1, dealer_button := (st.dealer_button + 1) % st.players.length } := by
      unfold advance_round
      simp [hne]
    refine ⟨_, hadv, rfl, ?_⟩
    by_cases h : st.dealer_button + 1 = st.players.length
    case pos => simp [h, Nat.mod_self]
    case neg =>
      have hlt : st.dealer_button + 1 < st.players.length := by omega
      simp [h, Nat.mod_eq_of_lt hlt]

/-- A two-seat state with empty hands, used by several witnesses. -/
def exC6St : SYNGameState :=
  { players := [mkPlayer none 4, mkPlayer none 4],
    dealer_button := 0, deck := [], current_low := Rank.King,
    cur_losers := [], round := 3 }

/-- The `advance_round_spec` at a two-player state with the button on seat 1:
practice keeps the button, a real round wraps it to seat 0. -/
theorem advance_round_spec_witness :
    (∃ st', advance_round
        { exC6St with dealer_button := 1 } true = some st' ∧
      st'.round = { exC6St with dealer_button := 1 }.round + 1 ∧
      st'.dealer_button = 1 ∧
      st'.players = exC6St.players) ∧
    (∃ st', advance_round { exC6St with dealer_button := 1 } false =
        some st' ∧
      st'.round = { exC6St with dealer_button := 1 }.round + 1 ∧
      st'.dealer_button = (if 1 + 1 = 2 then 0 else 1 + 1)) :=
  advance_round_spec { exC6St with dealer_button := 1 }
    (by decide) (by decide)

/-! ## C2: the cheater strategy -/

/-- The decision rule C2 claims for the cheater, following the spec's words
(to be compared with the code's `cheater_run`): swap (`true`) *unless* the
acting player's card is already strictly lower than every other seated
player's card, then hold (`false`). -/
def cheater_decide_claimed (st : SYNGameState) (seat : Nat) : Option Bool :=
  match st.players.get? seat with
  | none => none
  | some p =>
    match p.current_card with
    | none => none
    | some c =>
      some (! (List.range st.players.length).all (fun j =>
        if j = seat then true
        else
          match st.players.get? j with
          | none => true
          | some q =>
            match q.current_card with
            | none => true
            | some oc => decide (c.rank < oc.rank)))

/-- Two seats: seat 0 holds the five of clubs, seat 1 the three of
diamonds. -/
def exC2St : SYNGameState :=
  { players := [mkPlayer (some (Card.mk .Clubs .Five)) 4,
                mkPlayer (some (Card.mk .Diamonds .Three)) 4],
    dealer_button := 0, deck := [], current_low := Rank.King,
    cur_losers := [], round := 0 }

/-- C2 counterexample: at `exC2St`, seat 0 (a Five) is *not* strictly lower
than the other player (a Three), so the claimed rule answers `true` (swap);
the code answers `false` (hold), because it holds as soon as any opponent
holds a strictly lower card. -/
theorem cheater_claim_counterexample :
    cheater_run exC2St 0 = some false ∧
    cheater_decide_claimed exC2St 0 = some true := by decide

/-- Exact behavior of the cheater's scanning loop: it returns `true` iff no
opponent at another index holds a strictly lower card than the acting
player's. -/
lemma cheater_go_spec (pc : Card) (seat : Nat) :
    ∀ (l : List SYNPlayer) (i : Nat),
      (∀ q ∈ l, (q.current_card).isSome = true) →
      ∃ b, cheater_go (some pc) seat i l = some b ∧
        (b = true ↔ ∀ k q oc, l.get? k = some q → i + k ≠ seat →
          q.current_card = some oc → pc.rank ≤ oc.rank) := by
  intro l
  induction l with
  | nil =>
    intro i _
    refine ⟨true, rfl, ?_⟩
    simp
  | cons opp rest ih =>
    intro i hall
    have hopp : (opp.current_card).isSome = true := hall opp (by simp)
    have hrest : ∀ q ∈ rest, (q.current_card).isSome = true :=
      fun q hq => hall q (by simp [hq])
    obtain ⟨oc0, hoc0⟩ : ∃ oc, opp.current_card = some oc := by
      cases h : opp.current_card with
      | none => rw [h] at hopp; simp at hopp
      | some oc => exact ⟨oc, rfl⟩
    by_cases hsi : i = seat
    · obtain ⟨b, hb, hiff⟩ := ih (i + 1) hrest
      refine ⟨b, ?_, ?_⟩
      · simpa [cheater_go, hsi] using hb
      · rw [hiff]
        constructor
        · intro h k q oc hk hne hq
          cases k with
          | zero => exact absurd (by omega : i + 0 = seat) hne
          | succ k' => exact h k' q oc (by simpa using hk) (by omega) hq
        · intro h k q oc hk hne hq
          exact h (k + 1) q oc (by simpa using hk) (by omega) hq
    · by_cases hlt : oc0.rank < pc.rank
      · refine ⟨false, ?_, ?_⟩
        · simp [cheater_go, hsi, hoc0, hlt]
        · constructor
          · intro h; cases h
          · intro h
            exact absurd (h 0 opp oc0 (by simp) (by omega) hoc0)
              (Rank.not_le_of_lt hlt)
      · obtain ⟨b, hb, hiff⟩ := ih (i + 1) hrest
        refine ⟨b, ?_, ?_⟩
        · simpa [cheater_go, hsi, hoc0, hlt] using hb
        · rw [hiff]
          constructor
          · intro h k q oc hk hne hq
            cases k with
            | zero =>
              have hq' : q = opp := by simpa using hk.symm
              subst hq'
              have : oc = oc0 := by
                rw [hoc0] at hq
                exact (Option.some.inj hq).symm
              subst this
              exact Rank.le_of_not_lt hlt
            | succ k' => exact h k' q oc (by simpa using hk) (by omega) hq
          · intro h k q oc hk hne hq
            exact h (k + 1) q oc (by simpa using hk) (by omega) hq

/-- C2 amended: whenever every seated player holds a card and the acting seat
is occupied, the cheater returns a decision, and the decision is `true`
(swap) iff the acting player's rank is less than or equal to every other
seated player's rank — equivalently, it holds (`false`) exactly when some
other player's card is strictly lower.  The rule as claimed (swap unless
strictly lower than all others) is refuted by
`cheater_claim_counterexample`. -/
theorem cheater_run_amended (st : SYNGameState) (seat : Nat)
    (p : SYNPlayer) (c : Card)
    (hp : st.players.get? seat = some p)
    (hc : p.current_card = some c)
    (hall : ∀ q ∈ st.players, (q.current_card).isSome = true) :
    ∃ b, cheater_run st seat = some b ∧
      (b = true ↔ ∀ k q oc, st.players.get? k = some q → k ≠ seat →
        q.current_card = some oc → c.rank ≤ oc.rank) := by
  obtain ⟨b, hb, hiff⟩ := cheater_go_spec c seat st.players 0 hall
  refine ⟨b, ?_, ?_⟩
  · simp only [cheater_run, hp, hc]
    exact hb
  · rw [hiff]
    constructor
    · intro h k q oc hk hne hq
      exact h k q oc hk (by omega) hq
    · intro h k q oc hk hne hq
      exact h k q oc hk (by omega) hq

/-- The `cheater_run_amended` instantiated at `exC2St`, seat 1 (holding the
Three, the strict minimum, so the decision is `true`). -/
theorem cheater_run_amended_witness :
    ∃ b, cheater_run exC2St 1 = some b ∧
      (b = true ↔ ∀ k q oc, exC2St.players.get? k = some q → k ≠ 1 →
        q.current_card = some oc →
          (Card.mk .Diamonds .Three).rank ≤ oc.rank) :=
  cheater_run_amended exC2St 1
    (mkPlayer (some (Card.mk .Diamonds .Three)) 4)
    (Card.mk .Diamonds .Three) (by decide) rfl (by decide)

/-! ## C1: stake deduction in `calculate_results` -/

/-- Seat 0 holds the two of clubs, seat 1 the five of diamonds; both
stacks 4. -/
def exC1St : SYNGameState :=
  { players := [mkPlayer (some (Card.mk .Clubs .Two)) 4,
                mkPlayer (some (Card.mk .Diamonds .Five)) 4],
    dealer_button := 0, deck := [], current_low := Rank.King,
    cur_losers := [], round := 0 }

/-- C1 (code bug): a non-practice round in which seat 0 is the single loser
(rank Two against Five) with a nonzero stack of 4, yet `calculate_results`
deducts nothing: `tiegame` is initialised `True` and is only ever refuted
inside the all-players-are-losers branch, so a loser set different from the
whole table never pays.  The claim (with the spec and the game's rules)
demands seat 0's stack drop to 3; the code leaves both stacks at 4. -/
theorem calculate_results_no_deduction_bug :
    (calculate_results exC1St false).map
        (fun r => (r.1.players.map (fun q => q.current_stack), r.2.1, r.2.2))
      = some ([4, 4], Rank.Two, [0]) ∧
    [0] ≠ List.range exC1St.players.length ∧
    stackAt exC1St.players 0 ≠ 0 := by decide

/-! ## C3: the loser set is exactly the minimum-rank holders -/

lemma Rank.le_refl (a : Rank) : a ≤ a := by
  show a.val ≤ a.val
  omega

lemma Rank.le_trans {a b c : Rank} (h1 : a ≤ b) (h2 : b ≤ c) : a ≤ c := by
  have g1 : a.val ≤ b.val := h1
  have g2 : b.val ≤ c.val := h2
  show a.val ≤ c.val
  omega

lemma Rank.le_of_lt {a b : Rank} (h : a < b) : a ≤ b := by
  have g : a.val < b.val := h
  show a.val ≤ b.val
  omega

lemma Rank.val_injective : ∀ a b : Rank, a.val = b.val → a = b := by decide

lemma Rank.lt_of_not_lt_of_ne {c low : Rank} (h1 : ¬ c < low)
    (h2 : ¬ c = low) : low < c := by
  have g1 : ¬ c.val < low.val := h1
  have g2 : c.val ≠ low.val := fun h => h2 (Rank.val_injective c low h)
  show low.val < c.val
  omega

lemma Rank.le_king : ∀ a : Rank, a ≤ Rank.King := by decide

lemma Rank.eq_of_le_of_le {a b : Rank} (h1 : a ≤ b) (h2 : b ≤ a) : a = b := by
  have g1 : a.val ≤ b.val := h1
  have g2 : b.val ≤ a.val := h2
  exact Rank.val_injective a b (by omega)

/-- The `calc_low` is a lower bound on its seed and on every held rank. -/
lemma calc_low_le : ∀ (ps : List SYNPlayer) (low m : Rank),
    calc_low ps low = some m →
    m ≤ low ∧ ∀ p ∈ ps, ∀ c, p.current_card = some c → m ≤ c.rank := by
  intro ps
  induction ps with
  | nil =>
    intro low m h
    have heq : low = m := by simpa [calc_low] using h
    subst heq
    exact ⟨Rank.le_refl low, by simp⟩
  | cons p ps ih =>
    intro low m h
    cases hc : p.current_card with
    | none => simp [calc_low, hc] at h
    | some c =>
      simp only [calc_low, hc] at h
      by_cases hlt : c.rank < low
      · rw [if_pos hlt] at h
        obtain ⟨h1, h2⟩ := ih c.rank m h
        refine ⟨Rank.le_trans h1 (Rank.le_of_lt hlt), ?_⟩
        intro q hq c' hc'
        rcases List.mem_cons.mp hq with hq | hq
        · subst hq
          rw [hc] at hc'
          cases hc'
          exact h1
        · exact h2 q hq c' hc'
      · rw [if_neg hlt] at h
        obtain ⟨h1, h2⟩ := ih low m h
        refine ⟨h1, ?_⟩
        intro q hq c' hc'
        rcases List.mem_cons.mp hq with hq | hq
        · subst hq
          rw [hc] at hc'
          cases hc'
          exact Rank.le_trans h1 (Rank.le_of_not_lt hlt)
        · exact h2 q hq c' hc'

/-- The `calc_low` either returns its seed or a rank actually held. -/
lemma calc_low_attained : ∀ (ps : List SYNPlayer) (low m : Rank),
    calc_low ps low = some m →
    m = low ∨ ∃ p ∈ ps, ∃ c, p.current_card = some c ∧ c.rank = m := by
  intro ps
  induction ps with
  | nil =>
    intro low m h
    left
    have heq : low = m := by simpa [calc_low] using h
    exact heq.symm
  | cons p ps ih =>
    intro low m h
    cases hc : p.current_card with
    | none => simp [calc_low, hc] at h
    | some c =>
      simp only [calc_low, hc] at h
      by_cases hlt : c.rank < low
      · rw [if_pos hlt] at h
        rcases ih c.rank m h with h1 | h1
        · right
          exact ⟨p, by simp, c, hc, h1.symm⟩
        · right
          obtain ⟨q, hq, c', hc', hr⟩ := h1
          exact ⟨q, by simp [hq], c', hc', hr⟩
      · rw [if_neg hlt] at h
        rcases ih low m h with h1 | h1
        · left; exact h1
        · right
          obtain ⟨q, hq, c', hc', hr⟩ := h1
          exact ⟨q, by simp [hq], c', hc', hr⟩

/-- Exact characterization of the loser-scanning loop: it always succeeds on
fully-dealt players, its rank output is `calc_low`, and its index output
contains the carried-in accumulator (only if the low never improved) plus
exactly the positions holding the final low rank. -/
lemma scan_losers_spec : ∀ (ps : List SYNPlayer) (i : Nat) (low : Rank)
    (acc : List Nat),
    (∀ p ∈ ps, (p.current_card).isSome = true) →
    ∃ m L, scan_losers ps i low acc = some (m, L) ∧
      calc_low ps low = some m ∧
      (∀ j, j ∈ L ↔ ((m = low ∧ j ∈ acc) ∨
        ∃ k p c, ps.get? k = some p ∧ p.current_card = some c ∧
          c.rank = m ∧ j = i + k)) := by
  intro ps
  induction ps with
  | nil =>
    intro i low acc _
    refine ⟨low, acc, rfl, rfl, ?_⟩
    intro j
    simp
  | cons p ps ih =>
    intro i low acc hall
    have hrest : ∀ q ∈ ps, (q.current_card).isSome = true :=
      fun q hq => hall q (by simp [hq])
    have hp1 : (p.current_card).isSome = true := hall p (by simp)
    obtain ⟨c, hc⟩ : ∃ c, p.current_card = some c := by
      cases h : p.current_card with
      | none => rw [h] at hp1; simp at hp1
      | some c => exact ⟨c, rfl⟩
    by_cases heq : c.rank = low
    · obtain ⟨m, L, hscan, hcl, hmem⟩ := ih (i + 1) low (acc ++ [i]) hrest
      have hnlt : ¬ c.rank < low := by
        rw [heq]
        show ¬ low.val < low.val
        omega
      refine ⟨m, L, ?_, ?_, ?_⟩
      · simp only [scan_losers, hc]
        rw [if_pos heq]
        exact hscan
      · simp only [calc_low, hc]
        rw [if_neg hnlt]
        exact hcl
      · intro j
        rw [hmem j]
        constructor
        · rintro (⟨hm, hj⟩ | ⟨k, q, cq, hk, hcq, hr, hj⟩)
          · rcases List.mem_append.mp hj with hj | hj
            · exact Or.inl ⟨hm, hj⟩
            · have hji : j = i := by simpa using hj
              refine Or.inr ⟨0, p, c, by simp, hc, ?_, by omega⟩
              rw [heq, hm]
          · exact Or.inr ⟨k + 1, q, cq, by simpa using hk, hcq, hr, by omega⟩
        · rintro (⟨hm, hj⟩ | ⟨k, q, cq, hk, hcq, hr, hj⟩)
          · exact Or.inl ⟨hm, List.mem_append.mpr (Or.inl hj)⟩
          · cases k with
            | zero =>
              have hq : p = q := by simpa using hk
              subst hq
              rw [hc] at hcq
              cases hcq
              left
              refine ⟨by rw [← hr, heq], ?_⟩
              have hji : j = i := by omega
              exact List.mem_append.mpr (Or.inr (by simp [hji]))
            | succ k' =>
              exact Or.inr ⟨k', q, cq, by simpa using hk, hcq, hr, by omega⟩
    · by_cases hlt : c.rank < low
      · obtain ⟨m, L, hscan, hcl, hmem⟩ := ih (i + 1) c.rank [i] hrest
        have hmle : m ≤ c.rank := (calc_low_le ps c.rank m hcl).1
        have hmne : m ≠ low := by
          intro hx
          have g1 : m.val ≤ c.rank.val := hmle
          have g2 : c.rank.val < low.val := hlt
          rw [hx] at g1
          omega
        refine ⟨m, L, ?_, ?_, ?_⟩
        · simp only [scan_losers, hc]
          rw [if_neg heq, if_pos hlt]
          exact hscan
        · simp only [calc_low, hc]
          rw [if_pos hlt]
          exact hcl
        · intro j
          rw [hmem j]
          constructor
          · rintro (⟨hm, hj⟩ | ⟨k, q, cq, hk, hcq, hr, hj⟩)
            · have hji : j = i := by simpa using hj
              exact Or.inr ⟨0, p, c, by simp, hc, hm.symm, by omega⟩
            · exact Or.inr ⟨k + 1, q, cq, by simpa using hk, hcq, hr, by omega⟩
          · rintro (⟨hm, hj⟩ | ⟨k, q, cq, hk, hcq, hr, hj⟩)
            · exact absurd hm hmne
            · cases k with
              | zero =>
                have hq : p = q := by simpa using hk
                subst hq
                rw [hc] at hcq
                cases hcq
                exact Or.inl ⟨hr.symm, by simp [show j = i by omega]⟩
              | succ k' =>
                exact Or.inr ⟨k', q, cq, by simpa using hk, hcq, hr, by omega⟩
      · obtain ⟨m, L, hscan, hcl, hmem⟩ := ih (i + 1) low acc hrest
        have hmle : m ≤ low := (calc_low_le ps low m hcl).1
        have hlow : low < c.rank := Rank.lt_of_not_lt_of_ne hlt heq
        have hcm : c.rank ≠ m := by
          intro hx
          have g1 : m.val ≤ low.val := hmle
          have g2 : low.val < c.rank.val := hlow
          rw [hx] at g2
          omega
        refine ⟨m, L, ?_, ?_, ?_⟩
        · simp only [scan_losers, hc]
          rw [if_neg heq, if_neg hlt]
          exact hscan
        · simp only [calc_low, hc]
          rw [if_neg hlt]
          exact hcl
        · intro j
          rw [hmem j]
          constructor
          · rintro (⟨hm, hj⟩ | ⟨k, q, cq, hk, hcq, hr, hj⟩)
            · exact Or.inl ⟨hm, hj⟩
            · exact Or.inr ⟨k + 1, q, cq, by simpa using hk, hcq, hr, by omega⟩
          · rintro (⟨hm, hj⟩ | ⟨k, q, cq, hk, hcq, hr, hj⟩)
            · exact Or.inl ⟨hm, hj⟩
            · cases k with
              | zero =>
                have hq : p = q := by simpa using hk
                subst hq
                rw [hc] at hcq
                cases hcq
                exact absurd hr hcm
              | succ k' =>
                exact Or.inr ⟨k', q, cq, by simpa using hk, hcq, hr, by omega⟩

/-- C3 (confirmed): in the round flow — `cur_losers` freshly reset to `[]`,
as `start_round` guarantees — with at least one seated player, all holding
cards, Settle succeeds and returns a low rank `m` that bounds every held rank
from below and is actually held, together with a loser list containing
exactly the indices of the players whose held rank equals `m`; on a tie at
the minimum all tied players are included. -/
theorem settle_losers_spec (st : SYNGameState) (practice : Bool)
    (hne : st.players ≠ [])
    (hreset : st.cur_losers = [])
    (hall : ∀ p ∈ st.players, (p.current_card).isSome = true) :
    ∃ st' m L, calculate_results st practice = some (st', m, L) ∧
      (∀ p ∈ st.players, ∀ c, p.current_card = some c → m ≤ c.rank) ∧
      (∃ p, p ∈ st.players ∧ ∃ c, p.current_card = some c ∧ c.rank = m) ∧
      (∀ j, j ∈ L ↔ ∃ p c, st.players.get? j = some p ∧
        p.current_card = some c ∧ c.rank = m) := by
  obtain ⟨m, L, hscan, hcl, hmem⟩ :=
    scan_losers_spec st.players 0 Rank.King [] hall
  have hlb := (calc_low_le st.players Rank.King m hcl).2
  have hatt : ∃ p, p ∈ st.players ∧ ∃ c, p.current_card = some c ∧
      c.rank = m := by
    rcases calc_low_attained st.players Rank.King m hcl with hm | hm
    · subst hm
      cases hps : st.players with
      | nil => exact absurd hps hne
      | cons p0 rest =>
        have hp0 : p0 ∈ st.players := by rw [hps]; simp
        have h1 : (p0.current_card).isSome = true := hall p0 hp0
        obtain ⟨c0, hc0⟩ : ∃ c, p0.current_card = some c := by
          cases h : p0.current_card with
          | none => rw [h] at h1; simp at h1
          | some c => exact ⟨c, rfl⟩
        have h2 : Rank.King ≤ c0.rank := hlb p0 hp0 c0 hc0
        exact ⟨p0, by simp, c0, hc0, Rank.eq_of_le_of_le (Rank.le_king c0.rank) h2⟩
    · obtain ⟨p, hp, c, hcp, hr⟩ := hm
      exact ⟨p, hp, c, hcp, hr⟩
  have hout : ∃ st', calculate_results st practice = some (st', m, L) := by
    simp only [calculate_results, hreset, hscan]
    repeat' split
    all_goals exact ⟨_, rfl⟩
  obtain ⟨st', hst'⟩ := hout
  refine ⟨st', m, L, hst', hlb, hatt, ?_⟩
  intro j
  rw [hmem j]
  constructor
  · rintro (⟨_, hj⟩ | ⟨k, p, c, hk, hcp, hr, hj⟩)
    · simp at hj
    · have hjk : j = k := by omega
      subst hjk
      exact ⟨p, c, hk, hcp, hr⟩
  · rintro ⟨p, c, hk, hcp, hr⟩
    exact Or.inr ⟨j, p, c, hk, hcp, hr, by omega⟩

/-- The `settle_losers_spec` at a concrete two-player state: seat 1's Three is
the unique minimum, so the loser set is exactly seat 1. -/
theorem settle_losers_spec_witness :
    ∃ st' m L, calculate_results exC2St false = some (st', m, L) ∧
      (∀ p ∈ exC2St.players, ∀ c, p.current_card = some c → m ≤ c.rank) ∧
      (∃ p, p ∈ exC2St.players ∧ ∃ c, p.current_card = some c ∧
        c.rank = m) ∧
      (∀ j, j ∈ L ↔ ∃ p c, exC2St.players.get? j = some p ∧
        p.current_card = some c ∧ c.rank = m) :=
  settle_losers_spec exC2St false (by decide) rfl (by decide)

/-! ## C5 and C7: swap resolution in `process_turns` -/

lemma list_get_set_same {α : Type} : ∀ (l : List α) (i : Nat) (a : α),
    i < l.length → (l.set i a).get? i = some a := by
  intro l
  induction l with
  | nil => intro i a h; simp at h
  | cons x xs ih =>
    intro i a h
    cases i with
    | zero => simp
    | succ i' => simpa using ih i' a (by simpa using h)

lemma list_get_set_other {α : Type} : ∀ (l : List α) (i j : Nat) (a : α),
    i ≠ j → (l.set i a).get? j = l.get? j := by
  intro l
  induction l with
  | nil => intro i j a _; simp
  | cons x xs ih =>
    intro i j a h
    cases i with
    | zero =>
      cases j with
      | zero => exact absurd rfl h
      | succ j' => simp
    | succ i' =>
      cases j with
      | zero => simp
      | succ j' => simpa using ih i' j' a (by omega)

lemma next_ne_cur {cur n : Nat} (h2 : 2 ≤ n) (hc : cur < n) :
    (cur + 1) % n ≠ cur := by
  by_cases h : cur + 1 = n
  · rw [h, Nat.mod_self]
    omega
  · rw [Nat.mod_eq_of_lt (by omega)]
    omega

/-- Unfolding equation for a successful `take_turn`. -/
lemma take_turn_eq (st : SYNGameState) (seat : Nat) (p : SYNPlayer)
    (dec : Bool) (hp : st.players.get? seat = some p)
    (hdec : p.strategy.run st seat = some dec) :
    take_turn st seat = some ({ st with players := st.players.set seat (mark_turn p dec) }, dec) := by
  simp only [take_turn, hp, hdec]

/-- C5 (confirmed): a non-button acting seat whose strategy answers "swap"
while the next seat in turn order holds a King: the turn still succeeds, the
acting player's `attempted_to_swap` is set and `pre_swap_card` records the
held card, but neither seat's card changes — the target player's record
(including `target_of_swap = false`) and the deck are untouched. -/
theorem king_blocks_swap (st : SYNGameState) (i cur nxt : Nat)
    (p q : SYNPlayer) (qc : Card)
    (hn : 2 ≤ st.players.length)
    (hcurdef : cur = (st.dealer_button + i + 1) % st.players.length)
    (hnxtdef : nxt = (cur + 1) % st.players.length)
    (hnb : cur ≠ st.dealer_button)
    (hcur : st.players.get? cur = some p)
    (hdec : p.strategy.run st cur = some true)
    (hq : st.players.get? nxt = some q)
    (hqc : q.current_card = some qc)
    (hking : qc.rank = Rank.King)
    (hqt : q.target_of_swap = false) :
    ∃ st', turn_step st i = some st' ∧
      st'.players.get? cur =
        some { p with attempted_to_swap := true,
                      pre_swap_card := p.current_card } ∧
      st'.players.get? nxt = some q ∧
      st'.deck = st.deck := by
  subst hnxtdef
  subst hcurdef
  have hn0 : 0 < st.players.length := by omega
  have hcurlt :
      (st.dealer_button + i + 1) % st.players.length < st.players.length :=
    Nat.mod_lt _ hn0
  have hcn :
      ((st.dealer_button + i + 1) % st.players.length + 1) %
        st.players.length ≠
      (st.dealer_button + i + 1) % st.players.length :=
    next_ne_cur hn hcurlt
  have htt := take_turn_eq st
    ((st.dealer_button + i + 1) % st.players.length) p true hcur hdec
  have hget_nxt :
      (st.players.set ((st.dealer_button + i + 1) % st.players.length)
          (mark_turn p true)).get?
        (((st.dealer_button + i + 1) % st.players.length + 1) %
          st.players.length) = some q := by
    rw [list_get_set_other _ _ _ _ (Ne.symm hcn)]
    exact hq
  have hns : qc.is_stealable = false := by
    simp [Card.is_stealable, hking]
  refine ⟨{ st with players := st.players.set ((st.dealer_button + i + 1) % st.players.length) (mark_turn p true) }, ?_, ?_, ?_, rfl⟩
  · simp only [turn_step, htt, if_neg hnb, hget_nxt, hqc, hns]
    simp
  · exact list_get_set_same st.players
      ((st.dealer_button + i + 1) % st.players.length) (mark_turn p true)
      hcurlt
  · exact hget_nxt

/-- Two seats for the C5 witness: seat 0 (the button) holds the king of
hearts, seat 1 the ace of spades. -/
def exC5St : SYNGameState :=
  { players := [mkPlayer (some (Card.mk .Hearts .King)) 4,
                mkPlayer (some (Card.mk .Spades .Ace)) 4],
    dealer_button := 0, deck := [], current_low := Rank.Ace,
    cur_losers := [], round := 0 }

/-- The `king_blocks_swap` at `exC5St`: seat 1 (Ace, wants to swap) targets
seat 0's king; the attempt is recorded but no card moves. -/
theorem king_blocks_swap_witness :
    ∃ st', turn_step exC5St 0 = some st' ∧
      st'.players.get? 1 =
        some { mkPlayer (some (Card.mk .Spades .Ace)) 4 with
                 attempted_to_swap := true,
                 pre_swap_card :=
                   (mkPlayer (some (Card.mk .Spades .Ace)) 4).current_card } ∧
      st'.players.get? 0 = some (mkPlayer (some (Card.mk .Hearts .King)) 4) ∧
      st'.deck = exC5St.deck :=
  king_blocks_swap exC5St 0 1 0
    (mkPlayer (some (Card.mk .Spades .Ace)) 4)
    (mkPlayer (some (Card.mk .Hearts .King)) 4)
    (Card.mk .Hearts .King)
    (by decide) (by decide) (by decide) (by decide) (by decide) (by decide)
    (by decide) rfl rfl rfl

lemma mod_eq_iff_last {db i n : Nat} (hn : 2 ≤ n) (hdb : db < n)
    (hi : i < n) : (db + i + 1) % n = db ↔ i = n - 1 := by
  constructor
  · intro h
    by_cases hlt : db + i + 1 < n
    · rw [Nat.mod_eq_of_lt hlt] at h
      omega
    · have h2 : db + i + 1 - n < n := by omega
      rw [Nat.mod_eq_sub_mod (by omega), Nat.mod_eq_of_lt h2] at h
      omega
  · intro h
    subst h
    have heq : db + (n - 1) + 1 = db + n := by omega
    rw [heq, Nat.add_mod_right, Nat.mod_eq_of_lt hdb]

/-- C7 (confirmed): the dealer-button seat acts last — the acting seat of
loop iteration `i` equals the button iff `i` is the final iteration — and
when it asks to swap it swaps against the deck: the held card goes to the
bottom of the deck, the new top card is drawn, and no other player's record
changes (in particular no neighbor exchange ever happens). -/
theorem dealer_swaps_with_deck (st : SYNGameState) (p : SYNPlayer) (c : Card)
    (hn : 2 ≤ st.players.length)
    (hdb : st.dealer_button < st.players.length)
    (hp : st.players.get? st.dealer_button = some p)
    (hc : p.current_card = some c)
    (hdec : p.strategy.run st st.dealer_button = some true)
    (hcd : c ∉ st.deck) :
    (∀ i, i < st.players.length →
      (((st.dealer_button + i + 1) % st.players.length = st.dealer_button) ↔
        i = st.players.length - 1)) ∧
    (∃ st' hd tl, st.deck ++ [c] = hd :: tl ∧
      turn_step st (st.players.length - 1) = some st' ∧
      st'.deck = tl ∧
      st'.players.get? st.dealer_button =
        some { p with attempted_to_swap := true, pre_swap_card := some c,
                      current_card := some hd } ∧
      (∀ j, j ≠ st.dealer_button →
        st'.players.get? j = st.players.get? j)) := by
  have part1 : ∀ i, i < st.players.length →
      (((st.dealer_button + i + 1) % st.players.length = st.dealer_button) ↔
        i = st.players.length - 1) :=
    fun i hi => mod_eq_iff_last hn hdb hi
  refine ⟨part1, ?_⟩
  have hcur : (st.dealer_button + (st.players.length - 1) + 1) %
      st.players.length = st.dealer_button :=
    (part1 (st.players.length - 1) (by omega)).mpr rfl
  obtain ⟨hd, tl, hdt⟩ : ∃ hd tl, st.deck ++ [c] = hd :: tl := by
    cases st.deck with
    | nil => exact ⟨c, [], rfl⟩
    | cons x xs => exact ⟨x, xs ++ [c], rfl⟩
  have hmt : mark_turn p true = { p with attempted_to_swap := true, pre_swap_card := some c } := by
    simp only [mark_turn, hc]
  have htt := take_turn_eq st st.dealer_button p true hp hdec
  rw [hmt] at htt
  have hg1 : (st.players.set st.dealer_button { p with attempted_to_swap := true, pre_swap_card := some c }).get? st.dealer_button = some { p with attempted_to_swap := true, pre_swap_card := some c } :=
    list_get_set_same st.players st.dealer_button _ hdb
  have hdraw : SYNPlayer.draw { p with attempted_to_swap := true, pre_swap_card := some c } st.deck true = some ({ p with attempted_to_swap := true, pre_swap_card := some c, current_card := some hd }, tl) := by
    simp only [SYNPlayer.draw, hc, return_card]
    rw [if_neg hcd]
    simp only [if_true, hdt, deal_single]
  refine ⟨{ st with players := (st.players.set st.dealer_button { p with attempted_to_swap := true, pre_swap_card := some c }).set st.dealer_button { p with attempted_to_swap := true, pre_swap_card := some c, current_card := some hd }, deck := tl }, hd, tl, hdt, ?_, rfl, ?_, ?_⟩
  · simp only [turn_step, hcur, htt, hg1, hdraw]
    simp
  · have hlen : st.dealer_button <
        (st.players.set st.dealer_button { p with attempted_to_swap := true, pre_swap_card := some c }).length := by
      simpa using hdb
    exact list_get_set_same _ st.dealer_button _ hlen
  · intro j hj
    rw [list_get_set_other _ _ _ _ (Ne.symm hj),
      list_get_set_other _ _ _ _ (Ne.symm hj)]

/-- Button seat 0 holds the ace of clubs, seat 1 the five of hearts, and one
card remains in the deck. -/
def exC7St : SYNGameState :=
  { players := [mkPlayer (some (Card.mk .Clubs .Ace)) 4,
                mkPlayer (some (Card.mk .Hearts .Five)) 4],
    dealer_button := 0, deck := [Card.mk .Clubs .Two],
    current_low := Rank.Ace, cur_losers := [], round := 0 }

/-- The `dealer_swaps_with_deck` at `exC7St`: the button acts last (iteration 1
of 2) and its swap discards the ace under the deck and draws the two. -/
theorem dealer_swaps_with_deck_witness :
    (∀ i, i < exC7St.players.length →
      (((exC7St.dealer_button + i + 1) % exC7St.players.length =
        exC7St.dealer_button) ↔ i = exC7St.players.length - 1)) ∧
    (∃ st' hd tl,
      exC7St.deck ++ [Card.mk .Clubs .Ace] = hd :: tl ∧
      turn_step exC7St (exC7St.players.length - 1) = some st' ∧
      st'.deck = tl ∧
      st'.players.get? exC7St.dealer_button =
        some { mkPlayer (some (Card.mk .Clubs .Ace)) 4 with
                 attempted_to_swap := true,
                 pre_swap_card := some (Card.mk .Clubs .Ace),
                 current_card := some hd } ∧
      (∀ j, j ≠ exC7St.dealer_button →
        st'.players.get? j = exC7St.players.get? j)) :=
  dealer_swaps_with_deck exC7St (mkPlayer (some (Card.mk .Clubs .Ace)) 4)
    (Card.mk .Clubs .Ace)
    (by decide) (by decide) (by decide) rfl (by decide) (by decide)

/-! ## C4: the 52-card closed-system invariant -/

/-- Cards currently held by the players, in seat order. -/
def heldCards (ps : List SYNPlayer) : List Card :=
  ps.filterMap (fun p => p.current_card)

/-- The held-card contribution of a single player. -/
def optM : Option Card → Multiset Card
  | none => 0
  | some c => {c}

/-- The full 52-card multiset. -/
def fullDeckM : Multiset Card := (fullDeck : Multiset Card)

/-- The closed-system invariant: held cards plus deck form the full 52-card
set. -/
def roundInv (st : SYNGameState) : Prop :=
  (heldCards st.players : Multiset Card) + (st.deck : Multiset Card) =
    fullDeckM

lemma heldM_cons (p : SYNPlayer) (ps : List SYNPlayer) :
    (heldCards (p :: ps) : Multiset Card) =
      optM p.current_card + (heldCards ps : Multiset Card) := by
  cases hc : p.current_card with
  | none => simp [heldCards, optM, hc]
  | some c => simp [heldCards, optM, hc]

lemma heldM_set : ∀ (ps : List SYNPlayer) (i : Nat) (p q : SYNPlayer),
    ps.get? i = some p →
    (heldCards (ps.set i q) : Multiset Card) + optM p.current_card =
      (heldCards ps : Multiset Card) + optM q.current_card := by
  intro ps
  induction ps with
  | nil => intro i p q h; simp at h
  | cons a t ih =>
    intro i p q h
    cases i with
    | zero =>
      have ha : a = p := by simpa using h
      subst ha
      show (heldCards (q :: t) : Multiset Card) + optM a.current_card =
        (heldCards (a :: t) : Multiset Card) + optM q.current_card
      rw [heldM_cons, heldM_cons]
      abel
    | succ i' =>
      show (heldCards (a :: t.set i' q) : Multiset Card) +
          optM p.current_card =
        (heldCards (a :: t) : Multiset Card) + optM q.current_card
      rw [heldM_cons, heldM_cons]
      have := ih i' p q (by simpa using h)
      rw [add_assoc, add_assoc, this]

lemma heldM_set_samecard (ps : List SYNPlayer) (i : Nat) (p q : SYNPlayer)
    (h : ps.get? i = some p) (hq : q.current_card = p.current_card) :
    (heldCards (ps.set i q) : Multiset Card) =
      (heldCards ps : Multiset Card) := by
  have e := heldM_set ps i p q h
  rw [hq] at e
  exact add_right_cancel e

lemma list_get_some_lt {α : Type} {l : List α} {i : Nat} {a : α}
    (h : l.get? i = some a) : i < l.length := by
  by_contra hc
  push_neg at hc
  rw [List.get?_eq_none.mpr hc] at h
  cases h

/-- The `SYNPlayer.draw` never creates or destroys cards: the held card plus the
deck is preserved as a multiset. -/
lemma draw_conserves (p : SYNPlayer) (d : List Card) (rep : Bool)
    (p' : SYNPlayer) (d' : List Card)
    (h : p.draw d rep = some (p', d')) :
    optM p'.current_card + (d' : Multiset Card) =
      optM p.current_card + (d : Multiset Card) := by
  cases hc : p.current_card with
  | none =>
    cases d with
    | nil => simp [SYNPlayer.draw, hc, deal_single] at h
    | cons c rest =>
      simp [SYNPlayer.draw, hc, deal_single] at h
      obtain ⟨h1, h2⟩ := h
      subst h1
      subst h2
      simp [optM, Multiset.cons_coe]
  | some cc =>
    cases rep with
    | false =>
      simp [SYNPlayer.draw, hc] at h
      obtain ⟨h1, h2⟩ := h
      subst h1
      subst h2
      rw [hc]
    | true =>
      by_cases hin : cc ∈ d
      · simp [SYNPlayer.draw, hc, return_card, hin] at h
      · cases d with
        | nil =>
          simp [SYNPlayer.draw, hc, return_card, hin, deal_single] at h
          obtain ⟨h1, h2⟩ := h
          subst h1
          subst h2
          simp [optM, hc]
        | cons x xs =>
          simp [SYNPlayer.draw, hc, return_card, hin, deal_single] at h
          obtain ⟨h1, h2⟩ := h
          subst h1
          subst h2
          show optM (some x) + ((xs ++ [cc] : List Card) : Multiset Card) =
            optM (some cc) + ((x :: xs : List Card) : Multiset Card)
          simp only [optM]
          have e1 : ((xs ++ [cc] : List Card) : Multiset Card) =
              (xs : Multiset Card) + ({cc} : Multiset Card) := by
            rw [← Multiset.coe_singleton, Multiset.coe_add]
          have e2 : ((x :: xs : List Card) : Multiset Card) =
              ({x} : Multiset Card) + (xs : Multiset Card) := by
            rw [Multiset.singleton_add, Multiset.cons_coe]
          rw [e1, e2]
          abel

/-- Inversion for a successful `take_turn`. -/
lemma take_turn_inv (st : SYNGameState) (s : Nat) (st1 : SYNGameState)
    (dec : Bool) (h : take_turn st s = some (st1, dec)) :
    ∃ p, st.players.get? s = some p ∧
      st1 = { st with players := st.players.set s (mark_turn p dec) } := by
  cases hg : st.players.get? s with
  | none =>
    simp only [take_turn, hg] at h
    exact Option.noConfusion h
  | some p =>
    cases hr : p.strategy.run st s with
    | none =>
      simp only [take_turn, hg, hr] at h
      exact Option.noConfusion h
    | some dec' =>
      simp only [take_turn, hg, hr] at h
      injection h with h2
      injection h2 with h3 h4
      subst h4
      exact ⟨p, rfl, h3.symm⟩

/-- The `SYNPlayer.swap` preserves the held-card multiset. -/
lemma heldM_swap (ps : List SYNPlayer) (a b : Nat) (pa pb : SYNPlayer)
    (ha : ps.get? a = some pa) (hb : ps.get? b = some pb) :
    (heldCards (players_swap ps a b) : Multiset Card) =
      (heldCards ps : Multiset Card) := by
  by_cases hab : a = b
  · subst hab
    rw [ha] at hb
    injection hb with hb
    subst hb
    simp only [players_swap, ha]
    have h1 : (heldCards (ps.set a { pa with current_card := pa.current_card }) : Multiset Card) = (heldCards ps : Multiset Card) :=
      heldM_set_samecard ps a pa _ ha rfl
    have hga : (ps.set a { pa with current_card := pa.current_card }).get? a = some { pa with current_card := pa.current_card } :=
      list_get_set_same _ _ _ (list_get_some_lt ha)
    have h2 := heldM_set_samecard _ a _ { pa with current_card := pa.current_card, target_of_swap := true } hga rfl
    rw [h2, h1]
  · simp only [players_swap, ha, hb]
    have e1 := heldM_set ps a pa { pa with current_card := pb.current_card } ha
    have hb1 : (ps.set a { pa with current_card := pb.current_card }).get? b = some pb := by
      rw [list_get_set_other _ _ _ _ hab]
      exact hb
    have e2 := heldM_set _ b pb { pb with current_card := pa.current_card, target_of_swap := true } hb1
    have e3 := e2.trans e1
    exact add_right_cancel e3

/-- Pure multiset algebra used to chain a player update with a deck draw. -/
lemma conserve_chain {A H1 H X P D2 D : Multiset Card}
    (e1 : A + X = H1 + P) (e2 : P + D2 = X + D) (h1 : H1 = H) :
    A + D2 = H + D := by
  have key : A + D2 + X = H + D + X := by
    calc A + D2 + X = A + X + D2 := by abel
      _ = H1 + P + D2 := by rw [e1]
      _ = H1 + (P + D2) := by rw [add_assoc]
      _ = H1 + (X + D) := by rw [e2]
      _ = H + (X + D) := by rw [h1]
      _ = H + D + X := by abel
  exact add_right_cancel key

/-- One turn of `process_turns` preserves held cards plus deck. -/
lemma turn_step_conserves (st : SYNGameState) (i : Nat) (st' : SYNGameState)
    (h : turn_step st i = some st') :
    (heldCards st'.players : Multiset Card) + (st'.deck : Multiset Card) =
      (heldCards st.players : Multiset Card) + (st.deck : Multiset Card) := by
  simp only [turn_step] at h
  cases htt : take_turn st ((st.dealer_button + i + 1) % st.players.length)
    with
  | none =>
    simp only [htt] at h
    exact Option.noConfusion h
  | some pr =>
    obtain ⟨st1, dec⟩ := pr
    simp only [htt] at h
    obtain ⟨p, hg, hst1⟩ := take_turn_inv st _ st1 dec htt
    subst hst1
    have hheld1 : (heldCards (st.players.set
        ((st.dealer_button + i + 1) % st.players.length)
        (mark_turn p dec)) : Multiset Card) =
        (heldCards st.players : Multiset Card) :=
      heldM_set_samecard st.players _ p (mark_turn p dec) hg rfl
    cases dec with
    | false =>
      simp only [Bool.false_eq_true, if_false] at h
      injection h with h
      subst h
      simp only [hheld1]
    | true =>
      simp only [if_true] at h
      by_cases hb : (st.dealer_button + i + 1) % st.players.length =
          st.dealer_button
      · rw [if_pos hb] at h
        have hg2 : (st.players.set
            ((st.dealer_button + i + 1) % st.players.length)
            (mark_turn p true)).get?
            ((st.dealer_button + i + 1) % st.players.length) =
            some (mark_turn p true) :=
          list_get_set_same _ _ _ (list_get_some_lt hg)
        simp only [hg2] at h
        cases hdw : SYNPlayer.draw (mark_turn p true) st.deck true with
        | none =>
          simp only [hdw] at h
          exact Option.noConfusion h
        | some pr2 =>
          obtain ⟨p2, d2⟩ := pr2
          simp only [hdw] at h
          injection h with h
          subst h
          have e1 := heldM_set (st.players.set
            ((st.dealer_button + i + 1) % st.players.length)
            (mark_turn p true)) _ (mark_turn p true) p2 hg2
          have e2 := draw_conserves (mark_turn p true) st.deck true p2 d2 hdw
          exact conserve_chain e1 e2 hheld1
      · rw [if_neg hb] at h
        cases hg3 : (st.players.set
            ((st.dealer_button + i + 1) % st.players.length)
            (mark_turn p true)).get?
            (((st.dealer_button + i + 1) % st.players.length + 1) %
              st.players.length) with
        | none =>
          simp only [hg3] at h
          exact Option.noConfusion h
        | some np =>
          simp only [hg3] at h
          cases hnc : np.current_card with
          | none =>
            simp only [hnc] at h
            exact Option.noConfusion h
          | some c =>
            simp only [hnc] at h
            by_cases hsteal : c.is_stealable = true
            · rw [if_pos hsteal] at h
              injection h with h
              subst h
              have hswap := heldM_swap (st.players.set
                ((st.dealer_button + i + 1) % st.players.length)
                (mark_turn p true))
                ((st.dealer_button + i + 1) % st.players.length)
                (((st.dealer_button + i + 1) % st.players.length + 1) %
                  st.players.length)
                (mark_turn p true) np
                (list_get_set_same _ _ _ (list_get_some_lt hg)) hg3
              simp only [hswap, hheld1]
            · rw [if_neg hsteal] at h
              injection h with h
              subst h
              simp only [hheld1]

/-- The turn loop preserves held cards plus deck. -/
lemma run_turns_conserves : ∀ (k i : Nat) (st st' : SYNGameState),
    run_turns st i k = some st' →
    (heldCards st'.players : Multiset Card) + (st'.deck : Multiset Card) =
      (heldCards st.players : Multiset Card) + (st.deck : Multiset Card) := by
  intro k
  induction k with
  | zero =>
    intro i st st' h
    simp only [run_turns] at h
    injection h with h
    subst h
    rfl
  | succ k' ih =>
    intro i st st' h
    simp only [run_turns] at h
    cases hts : turn_step st i with
    | none =>
      simp only [hts] at h
      exact Option.noConfusion h
    | some st1 =>
      simp only [hts] at h
      exact (ih (i + 1) st1 st' h).trans (turn_step_conserves st i st1 hts)

/-- The `process_turns` preserves held cards plus deck whenever it completes. -/
lemma process_turns_conserves (st st' : SYNGameState)
    (h : process_turns st = some st') :
    (heldCards st'.players : Multiset Card) + (st'.deck : Multiset Card) =
      (heldCards st.players : Multiset Card) + (st.deck : Multiset Card) := by
  simp only [process_turns] at h
  by_cases hn : st.players.length < 2
  · rw [if_pos hn] at h
    exact Option.noConfusion h
  · rw [if_neg hn] at h
    exact run_turns_conserves st.players.length 0 st st' h

/-- The dealing loop succeeds whenever the deck is large enough; each player
ends up holding one card, the cards dealt being the top of the deck in seat
order. -/
lemma deal_players_spec : ∀ (ps : List SYNPlayer) (d : List Card),
    ps.length ≤ d.length →
    ∃ ps' d', deal_players ps d = some (ps', d') ∧
      heldCards ps' = d.take ps.length ∧
      d' = d.drop ps.length ∧
      (∀ p ∈ ps', (p.current_card).isSome = true) ∧
      ps'.length = ps.length := by
  intro ps
  induction ps with
  | nil =>
    intro d _
    exact ⟨[], d, rfl, by simp [heldCards], by simp, by simp, rfl⟩
  | cons p ps ih =>
    intro d h
    cases d with
    | nil => simp at h
    | cons c rest =>
      have hdraw : (begin_turn_reset p).draw (c :: rest) false =
          some ({ begin_turn_reset p with current_card := some c, orig_card := some c }, rest) := by
        simp [SYNPlayer.draw, begin_turn_reset, deal_single]
      obtain ⟨ps', d', hdp, hheld, hdrop, hall, hlen⟩ :=
        ih rest (by simpa using h)
      refine ⟨{ begin_turn_reset p with current_card := some c, orig_card := some c } :: ps', d', ?_, ?_, ?_, ?_, ?_⟩
      · simp only [deal_players, hdraw, hdp]
      · have hcons : heldCards ({ begin_turn_reset p with current_card := some c, orig_card := some c } :: ps') = c :: heldCards ps' := by
          simp [heldCards]
        rw [hcons, hheld]
        simp
      · simpa using hdrop
      · intro q hq
        rcases List.mem_cons.mp hq with hq | hq
        · subst hq; rfl
        · exact hall q hq
      · simp [hlen]

/-- The current-low loop succeeds on fully-dealt players. -/
lemma calc_low_total : ∀ (ps : List SYNPlayer) (low : Rank),
    (∀ p ∈ ps, (p.current_card).isSome = true) →
    ∃ m, calc_low ps low = some m := by
  intro ps
  induction ps with
  | nil => intro low _; exact ⟨low, rfl⟩
  | cons p ps ih =>
    intro low hall
    obtain ⟨c, hc⟩ : ∃ c, p.current_card = some c := by
      have h1 := hall p (by simp)
      cases hcc : p.current_card with
      | none => rw [hcc] at h1; simp at h1
      | some c => exact ⟨c, rfl⟩
    obtain ⟨m, hm⟩ := ih (if c.rank < low then c.rank else low)
      (fun q hq => hall q (by simp [hq]))
    refine ⟨m, ?_⟩
    simp only [calc_low, hc]
    exact hm

/-- The `start_round` succeeds on a 52-card deck with at most 52 players, dealing
the top of the (shuffled) deck out in seat order. -/
lemma start_round_spec (st : SYNGameState) (shuffled : List Card)
    (hlen52 : st.deck.length = 52)
    (hsh : shuffled.length = st.deck.length)
    (hn : st.players.length ≤ 52) :
    ∃ st1, start_round st shuffled = some st1 ∧
      (∀ p ∈ st1.players, (p.current_card).isSome = true) ∧
      st1.cur_losers = [] ∧
      heldCards st1.players = shuffled.take st.players.length ∧
      st1.deck = shuffled.drop st.players.length ∧
      st1.dealer_button = st.dealer_button ∧
      st1.players.length = st.players.length := by
  obtain ⟨ps', d', hdp, hheld, hdrop, hall, hlenp⟩ :=
    deal_players_spec st.players shuffled (by omega)
  obtain ⟨m, hm⟩ := calc_low_total ps' Rank.King hall
  refine ⟨{ st with players := ps', deck := d', cur_losers := [], current_low := m }, ?_, hall, rfl, ?_, ?_, rfl, ?_⟩
  · simp only [start_round]
    rw [if_pos hlen52]
    simp only [hdp, hm]
  · exact hheld
  · exact hdrop
  · exact hlenp

/-- The collecting loop succeeds whenever held cards and deck hold no
duplicate card, empties every hand, and appends the held cards at the bottom
of the deck. -/
lemma collect_players_spec : ∀ (ps : List SYNPlayer) (d : List Card),
    (heldCards ps ++ d).Nodup →
    ∃ ps' d', collect_players ps d = some (ps', d') ∧
      (∀ p ∈ ps', p.current_card = none) ∧
      d' = d ++ heldCards ps := by
  intro ps
  induction ps with
  | nil =>
    intro d _
    exact ⟨[], d, rfl, by simp, by simp [heldCards]⟩
  | cons p ps ih =>
    intro d hnd
    cases hc : p.current_card with
    | none =>
      have hskip : heldCards (p :: ps) = heldCards ps := by
        simp [heldCards, hc]
      rw [hskip] at hnd
      obtain ⟨ps', d', hcp, hall, hd'⟩ := ih d hnd
      refine ⟨p :: ps', d', ?_, ?_, ?_⟩
      · simp only [collect_players, hc, hcp]
      · intro q hq
        rcases List.mem_cons.mp hq with hq | hq
        · subst hq; exact hc
        · exact hall q hq
      · rw [hd', hskip]
    | some c =>
      have hcons : heldCards (p :: ps) = c :: heldCards ps := by
        simp [heldCards, hc]
      rw [hcons] at hnd
      have hnd1 : (c :: (heldCards ps ++ d)).Nodup := by simpa using hnd
      have hcn : c ∉ heldCards ps ++ d := (List.nodup_cons.mp hnd1).1
      have hnd2 : (heldCards ps ++ d).Nodup := (List.nodup_cons.mp hnd1).2
      have hcd : c ∉ d := fun hx => hcn (List.mem_append.mpr (Or.inr hx))
      have hret : return_card d c = some (d ++ [c]) := by
        simp [return_card, hcd]
      have hperm : (c :: (heldCards ps ++ d)).Perm
          (heldCards ps ++ (d ++ [c])) := by
        rw [← List.append_assoc]
        exact (List.perm_append_singleton c (heldCards ps ++ d)).symm
      have hnd3 : (heldCards ps ++ (d ++ [c])).Nodup := hperm.nodup hnd1
      obtain ⟨ps', d', hcp, hall, hd'⟩ := ih (d ++ [c]) hnd3
      refine ⟨{ p with current_card := none } :: ps', d', ?_, ?_, ?_⟩
      · simp only [collect_players, hc, hret, hcp]
      · intro q hq
        rcases List.mem_cons.mp hq with hq | hq
        · subst hq; rfl
        · exact hall q hq
      · rw [hd', hcons]
        simp

/-- C4 (confirmed): starting a round from an idle state (all hands empty,
deck = the full 52-card set as a multiset) with any shuffle permutation:
the deck holds exactly 52 cards right before Deal; after Deal the held cards
plus the deck form the full 52-card multiset; the invariant is preserved
across Process turns (whenever it completes); and Collect then succeeds,
empties every hand and restores a deck that is the full 52-card multiset —
in particular 52 cards again. -/
theorem round_card_conservation (st : SYNGameState) (shuffled : List Card)
    (hidle : ∀ p ∈ st.players, p.current_card = none)
    (hdeck : (st.deck : Multiset Card) = fullDeckM)
    (hperm : shuffled.Perm st.deck)
    (hn : st.players.length ≤ 52) :
    st.deck.length = 52 ∧
    ∃ st1, start_round st shuffled = some st1 ∧ roundInv st1 ∧
      ∀ st2, process_turns st1 = some st2 → roundInv st2 ∧
        ∃ st3, collect_all_hands st2 = some st3 ∧
          (∀ p ∈ st3.players, p.current_card = none) ∧
          (st3.deck : Multiset Card) = fullDeckM ∧
          st3.deck.length = 52 := by
  have hfd52 : fullDeck.length = 52 := by decide
  have hfdnd : fullDeck.Nodup := by decide
  have hlen52 : st.deck.length = 52 := by
    have hc := congrArg Multiset.card hdeck
    rw [Multiset.coe_card] at hc
    rw [hc]
    show Multiset.card (fullDeck : Multiset Card) = 52
    rw [Multiset.coe_card]
    exact hfd52
  refine ⟨hlen52, ?_⟩
  obtain ⟨st1, hsr, hall1, hcl1, hheld1, hdeck1, hdb1, hlen1⟩ :=
    start_round_spec st shuffled hlen52 hperm.length_eq hn
  have hshm : (shuffled : Multiset Card) = fullDeckM := by
    rw [Multiset.coe_eq_coe.mpr hperm]
    exact hdeck
  have hinv1 : roundInv st1 := by
    show (heldCards st1.players : Multiset Card) +
      (st1.deck : Multiset Card) = fullDeckM
    rw [hheld1, hdeck1, Multiset.coe_add, List.take_append_drop]
    exact hshm
  refine ⟨st1, hsr, hinv1, ?_⟩
  intro st2 hpt
  have hinv2 : roundInv st2 := by
    show (heldCards st2.players : Multiset Card) +
      (st2.deck : Multiset Card) = fullDeckM
    rw [process_turns_conserves st1 st2 hpt]
    exact hinv1
  refine ⟨hinv2, ?_⟩
  have hm2 : ((heldCards st2.players ++ st2.deck : List Card) :
      Multiset Card) = fullDeckM := by
    rw [← Multiset.coe_add]
    exact hinv2
  have hnd2 : (heldCards st2.players ++ st2.deck).Nodup := by
    have hp2 : (heldCards st2.players ++ st2.deck).Perm fullDeck :=
      Multiset.coe_eq_coe.mp hm2
    exact hp2.symm.nodup hfdnd
  obtain ⟨ps3, d3, hcp, hall3, hd3⟩ :=
    collect_players_spec st2.players st2.deck hnd2
  have hd3m : (d3 : Multiset Card) = fullDeckM := by
    rw [hd3, ← Multiset.coe_add, add_comm, Multiset.coe_add]
    exact hm2
  refine ⟨{ st2 with players := ps3, deck := d3 }, ?_, hall3, hd3m, ?_⟩
  · simp only [collect_all_hands, hcp]
  · have hc3 := congrArg Multiset.card hd3m
    rw [Multiset.coe_card] at hc3
    rw [hc3]
    show Multiset.card (fullDeck : Multiset Card) = 52
    rw [Multiset.coe_card]
    exact hfd52

/-- The idle two-player state on a fresh full deck. -/
def exC4St : SYNGameState :=
  { players := [mkPlayer none 4, mkPlayer none 4],
    dealer_button := 0, deck := fullDeck, current_low := Rank.King,
    cur_losers := [], round := 0 }

/-- The `round_card_conservation` applied at `exC4St` with the identity
shuffle. -/
theorem round_card_conservation_witness :
    exC4St.deck.length = 52 ∧
    ∃ st1, start_round exC4St fullDeck = some st1 ∧ roundInv st1 ∧
      ∀ st2, process_turns st1 = some st2 → roundInv st2 ∧
        ∃ st3, collect_all_hands st2 = some st3 ∧
          (∀ p ∈ st3.players, p.current_card = none) ∧
          (st3.deck : Multiset Card) = fullDeckM ∧
          st3.deck.length = 52 :=
  round_card_conservation exC4St fullDeck (by decide) rfl
    (List.Perm.refl fullDeck) (by decide)
